import Mathlib

/-!
Verification development for the dev.pulse ingestion-to-feed pipeline.

Shallow embedding of the pipeline core: fuzzy deduplication
(`src/lib/pipeline/dedup.ts`), the classifier contract
(`src/lib/ai/scorer.ts`), the summarizer's noise filter
(`src/lib/ai/summarizer.ts`), the balanced-feed assembly and pagination of
the feed endpoint (`src/app/api/articles/today/route.ts`), the recency
cache (`articles-cache`), and the pipeline orchestrator
(`src/lib/pipeline/orchestrator.ts`).

JavaScript strings are modelled as Lean `String` with character-list
operations; JS numbers carrying integral data as `Int`/`Nat`; the
normalized-edit-distance similarity as an exact rational `ℚ` (the float
results compared against 0.85 / 0.95 have small denominators, so the exact
comparison agrees with the float one); `undefined`-able fields as `Option`;
a thrown exception as `none`.
-/

namespace DevPulse

/-! ### Character-list string helpers

Lean's byte-position `String` primitives are replaced by executable
character-list versions so that concrete inputs evaluate by `decide`. -/

/-- Does the first character list start with the second? -/
def charsStartWith : List Char → List Char → Bool
  | _, [] => true
  | [], _ :: _ => false
  | c :: cs, p :: ps => c == p && charsStartWith cs ps

/-- Does the character list contain the second as a contiguous run? -/
def charsContain (pat : List Char) : List Char → Bool
  | [] => charsStartWith [] pat
  | c :: cs => charsStartWith (c :: cs) pat || charsContain pat cs

/-- JS `String.prototype.includes`. -/
def strIncludes (s pat : String) : Bool := charsContain pat.data s.data

/-- JS `String.prototype.toLowerCase` (ASCII range, as used on URLs/titles). -/
def strToLower (s : String) : String := ⟨s.data.map Char.toLower⟩

/-- `startsWith` on strings via character lists. -/
def strStartsWith (s p : String) : Bool := charsStartWith s.data p.data

/-- Drop the first `n` characters. -/
def strDrop (s : String) (n : Nat) : String := ⟨s.data.drop n⟩

/-- A JS string is truthy iff it is nonempty; an absent (`undefined`) field
is falsy. -/
def truthy : Option String → Bool
  | none => false
  | some s => !(s.data.isEmpty)

/-! ### Data model (`src/lib/sources/types.ts`)

`RawArticle` restricted to the fields the pipeline core reads: `title`,
`url`, `source`, `publishedAt` (epoch milliseconds), engagement `score`,
`githubRepo`, `githubStars`, `isGithubTrending`, and the two
discussion-thread URLs. -/

inductive SourceName
  | github | hn | reddit | arxiv | blog | devto
  deriving DecidableEq, Repr

structure RawArticle where
  title : String
  url : String
  source : SourceName
  publishedAt : Int
  score : Option Int
  githubRepo : Option String
  githubStars : Option Int
  isGithubTrending : Option Bool
  hnDiscussionUrl : Option String
  redditDiscussionUrl : Option String
  deriving DecidableEq, Repr

/-- `article.score || 0`: engagement score with an absent value read as 0. -/
def scoreOrZero (a : RawArticle) : Int := a.score.getD 0

/-! ### Deduplicator (`src/lib/pipeline/dedup.ts`) -/

/-- One matrix row step of the Levenshtein dynamic program
(`levenshteinDistance`): given the tail of the previous row starting at
column `j-1` and the value just computed to the left in the current row,
produce the rest of the current row. -/
def levNextRowAux (c2 : Char) : List Char → List Nat → Nat → List Nat
  | [], _, _ => []
  | c1 :: s1, prev, left =>
    match prev with
    | [] => []
    | pd :: prest =>
      let up := prest.headD 0
      let cur := if c2 = c1 then pd else Nat.min (pd + 1) (Nat.min (left + 1) (up + 1))
      cur :: levNextRowAux c2 s1 prest cur

/-- `levenshteinDistance(str1, str2)`: the standard single-character
insert/delete/substitute dynamic program, computed row by row over `str2`
(row `i`) against `str1` (column `j`), returning
`matrix[str2.length][str1.length]`. -/
def levenshteinDistance (str1 str2 : String) : Nat :=
  let s1 := str1.data
  let row0 := List.range (s1.length + 1)
  let lastRow :=
    (str2.data.foldl
      (fun (acc : List Nat × Nat) c2 =>
        let i := acc.2 + 1
        (i :: levNextRowAux c2 s1 acc.1 i, i))
      (row0, 0)).1
  (lastRow.getLast?).getD 0

/-- `stringSimilarity(str1, str2) = (longer.length - distance) / longer.length`,
with similarity of two empty strings defined as 1. Computed exactly in `ℚ`
(built with `mkRat` so concrete values reduce inside the kernel). -/
def stringSimilarity (str1 str2 : String) : ℚ :=
  let longer := if str2.length < str1.length then str1 else str2
  let shorter := if str2.length < str1.length then str2 else str1
  if longer.length = 0 then mkRat 1 1
  else mkRat ((longer.length : Int) - (levenshteinDistance longer shorter : Int)) longer.length

/-- `normalizeUrl`: lowercase, strip a leading `http://` or `https://`,
strip a leading `www.`, strip one trailing `/`. -/
def normalizeUrl (url : String) : String :=
  let s := strToLower url
  let s := if strStartsWith s "https://" then strDrop s 8
           else if strStartsWith s "http://" then strDrop s 7
           else s
  let s := if strStartsWith s "www." then strDrop s 4 else s
  if s.data.getLast? = some '/' then ⟨s.data.dropLast⟩ else s

/-- Model of the platform URL parser's hostname extraction, as used by
`extractDomain` (`new URL(url).hostname`): an absolute `http`/`https` URL
yields its (lowercased) host, everything else throws — modelled as `none`. -/
def parseHostname (url : String) : Option String :=
  let lower := strToLower url
  let rest :=
    if strStartsWith lower "https://" then some (strDrop lower 8)
    else if strStartsWith lower "http://" then some (strDrop lower 7)
    else none
  match rest with
  | none => none
  | some r =>
    let host : List Char := r.data.takeWhile (fun c => !(c == '/' || c == ':' || c == '?' || c == '#'))
    if host.isEmpty then none else some ⟨host⟩

/-- `extractDomain`: hostname without a leading `www.`; a parse failure
fails closed to the empty string (the `try/catch` in the source). -/
def extractDomain (url : String) : String :=
  match parseHostname url with
  | none => ""
  | some h => if strStartsWith h "www." then strDrop h 4 else h

/-- Default `titleSimilarityThreshold` of `areDuplicates` (0.85). -/
def titleSimilarityThreshold : ℚ := mkRat 85 100

/-- Hard-coded cross-domain title threshold of `areDuplicates` (0.95). -/
def crossDomainTitleThreshold : ℚ := mkRat 95 100

/-- `areDuplicates(article1, article2)` at the default thresholds (the only
way the repository calls it; the unused `urlSimilarityThreshold` option is
dropped): the four short-circuited rules of the source. -/
def areDuplicates (a1 a2 : RawArticle) : Bool :=
  if normalizeUrl a1.url = normalizeUrl a2.url then true
  else if truthy a1.githubRepo = true ∧ truthy a2.githubRepo = true ∧
          a1.githubRepo = a2.githubRepo ∧
          strIncludes a1.url "/releases/" = true ∧ strIncludes a2.url "/releases/" = true then true
  else
    let domain1 := extractDomain a1.url
    let domain2 := extractDomain a2.url
    let titleSimilarity := stringSimilarity (strToLower a1.title) (strToLower a2.title)
    if domain1 ≠ "" ∧ domain2 ≠ "" ∧ domain1 = domain2 ∧
        titleSimilarityThreshold ≤ titleSimilarity then true
    else if crossDomainTitleThreshold ≤ titleSimilarity then true
    else false

/-- Generic insertion into a list sorted by the boolean relation `le`. -/
def insertBy {α : Type} (le : α → α → Bool) (a : α) : List α → List α
  | [] => [a]
  | b :: l => if le a b then a :: b :: l else b :: insertBy le a l

/-- Generic stable insertion sort: a faithful model of the (stable) JS
`Array.prototype.sort`. -/
def insertionSortBy {α : Type} (le : α → α → Bool) : List α → List α
  | [] => []
  | a :: l => insertBy le a (insertionSortBy le l)

/-- The comparator `(a, b) => (b.score || 0) - (a.score || 0)` of
`mergeArticles`, as the relation "a may stay before b". -/
def scoreDescLe (a b : RawArticle) : Bool := decide (scoreOrZero b ≤ scoreOrZero a)

/-- The truthy HN discussion URLs of the group, in input order
(`articles.map(a => a.hnDiscussionUrl).filter(Boolean)`). -/
def hnCandidates (all : List RawArticle) : List String :=
  all.filterMap (fun x => if truthy x.hnDiscussionUrl then x.hnDiscussionUrl else none)

/-- The truthy Reddit discussion URLs of the group, in input order. -/
def redditCandidates (all : List RawArticle) : List String :=
  all.filterMap (fun x => if truthy x.redditDiscussionUrl then x.redditDiscussionUrl else none)

/-- `if (hnUrls.length > 0 && !canonical.hnDiscussionUrl) canonical.hnDiscussionUrl = hnUrls[0]`. -/
def backfillHn (all : List RawArticle) (c : RawArticle) : RawArticle :=
  if hnCandidates all ≠ [] ∧ truthy c.hnDiscussionUrl = false
  then { c with hnDiscussionUrl := (hnCandidates all).head? } else c

/-- The analogous Reddit backfill. -/
def backfillReddit (all : List RawArticle) (c : RawArticle) : RawArticle :=
  if redditCandidates all ≠ [] ∧ truthy c.redditDiscussionUrl = false
  then { c with redditDiscussionUrl := (redditCandidates all).head? } else c

/-- `mergeArticles`: an empty input throws (modelled `none`), a singleton is
returned as is; otherwise the articles are stably sorted by engagement
score descending, the first becomes canonical, and each discussion-thread
URL is backfilled from the first truthy one in input order only when the
canonical item's own field is not already set. -/
def mergeArticles (articles : List RawArticle) : Option RawArticle :=
  match articles with
  | [] => none
  | [a] => some a
  | a :: b :: rest =>
    let all := a :: b :: rest
    match (insertionSortBy scoreDescLe all).head? with
    | none => none
    | some canonical => some (backfillReddit all (backfillHn all canonical))

/-- The first element of a list attaining the maximal `scoreOrZero` (ties
keep the earlier element) — the head of the stable descending sort. -/
def firstMaxByScore : List RawArticle → Option RawArticle
  | [] => none
  | a :: l =>
    match firstMaxByScore l with
    | none => some a
    | some m => if scoreOrZero m ≤ scoreOrZero a then some a else some m

/-- Association-list read modelling `Map.prototype.get`. -/
def mapGet (m : List (String × List RawArticle)) (k : String) : Option (List RawArticle) :=
  match m with
  | [] => none
  | (k', v) :: rest => if k' = k then some v else mapGet rest k

/-- Association-list write modelling `Map.prototype.set` (update in place,
or append a new key). -/
def mapSet (m : List (String × List RawArticle)) (k : String) (v : List RawArticle) :
    List (String × List RawArticle) :=
  match m with
  | [] => [(k, v)]
  | (k', v') :: rest => if k' = k then (k, v) :: rest else (k', v') :: mapSet rest k v

/-- The inner loop of `deduplicateArticles`: scan the accumulated canonical
list left to right; at the first `areDuplicates(article, canonical[i])`
match, replace that entry by the merge and report the merged entry;
`none` when no canonical entry matches. -/
def mergeIntoCanonical (article : RawArticle) :
    List RawArticle → Option (List RawArticle × RawArticle)
  | [] => none
  | c :: rest =>
    if areDuplicates article c then
      match mergeArticles [c, article] with
      | some merged => some (merged :: rest, merged)
      | none => none
    else
      match mergeIntoCanonical article rest with
      | some (rest', merged) => some (c :: rest', merged)
      | none => none

structure DedupResult where
  canonical : List RawArticle
  duplicates : List (String × List RawArticle)
  deriving DecidableEq, Repr

/-- One iteration of `deduplicateArticles`' outer loop: merge into the first
matching canonical entry (recording the article under the merged entry's
URL), or append as a new canonical entry. -/
def dedupStep (st : DedupResult) (article : RawArticle) : DedupResult :=
  match mergeIntoCanonical article st.canonical with
  | some (canonical', merged) =>
    { canonical := canonical',
      duplicates := mapSet st.duplicates merged.url ((mapGet st.duplicates merged.url).getD [] ++ [article]) }
  | none => { st with canonical := st.canonical ++ [article] }

/-- `deduplicateArticles`: single left-to-right pass. -/
def deduplicateArticles (articles : List RawArticle) : DedupResult :=
  articles.foldl dedupStep { canonical := [], duplicates := [] }

/-! ### Ghost instrumentation of the deduplication pass

To state which input items a canonical slot has absorbed over a whole run,
the pass is replayed with each slot paired with its member list (the slot's
creator first, then every item merged into it, in arrival order). The
control flow is identical to `mergeIntoCanonical` / `dedupStep`; only the
ghost member list is added, and the duplicates map (covered by the per-step
shape of the claim) is dropped. -/

/-- `mergeIntoCanonical` with ghost member lists. -/
def mergeIntoSlots (article : RawArticle) :
    List (List RawArticle × RawArticle) →
      Option (List (List RawArticle × RawArticle) × RawArticle)
  | [] => none
  | (g, c) :: rest =>
    if areDuplicates article c then
      match mergeArticles [c, article] with
      | some merged => some ((g ++ [article], merged) :: rest, merged)
      | none => none
    else
      match mergeIntoSlots article rest with
      | some (rest', merged) => some ((g, c) :: rest', merged)
      | none => none

/-- `dedupStep` with ghost member lists. -/
def slotsStep (slots : List (List RawArticle × RawArticle)) (article : RawArticle) :
    List (List RawArticle × RawArticle) :=
  match mergeIntoSlots article slots with
  | some (slots', _) => slots'
  | none => slots ++ [([article], article)]

/-- The canonical slots of a full deduplication run, each paired with the
input items assigned to it so far. -/
def dedupSlots (articles : List RawArticle) : List (List RawArticle × RawArticle) :=
  articles.foldl slotsStep []

/-- Agreement on every `RawArticle` field except the two backfillable
discussion-thread URLs. -/
def agreesExceptDiscussion (c fm : RawArticle) : Prop :=
  c.url = fm.url ∧ c.title = fm.title ∧ c.score = fm.score ∧ c.source = fm.source ∧
  c.publishedAt = fm.publishedAt ∧ c.githubRepo = fm.githubRepo ∧
  c.githubStars = fm.githubStars ∧ c.isGithubTrending = fm.isGithubTrending

/-- A slot is sound when its representative carries the URL, score and all
other non-backfillable fields of the first maximal-score member of its
group (ties keeping the earliest member). -/
def SlotOk (gc : List RawArticle × RawArticle) : Prop :=
  ∃ fm, firstMaxByScore gc.1 = some fm ∧ agreesExceptDiscussion gc.2 fm

/-! ### Classifier contract (`src/lib/ai/scorer.ts`) -/

/-- The `label` field of `ScoringResult`, an ordered severity tier. -/
inductive ImportanceLabel
  | BREAKING | MAJOR | NOTABLE | INFO | NOISE
  deriving DecidableEq, Repr

/-- `ScoringResult` (`src/lib/ai/scorer.ts`). -/
structure ScoringResult where
  score : Int
  label : ImportanceLabel
  category : String
  languages : List String
  frameworks : List String
  topics : List String
  requiresCodeExample : Bool
  affectsProduction : Bool
  reasoning : String
  tags : List String
  deriving DecidableEq, Repr

/-- Modelled from the spec: the score-to-label thresholds of the external
classifier contract. The repository delegates label assignment to the
language-model service and states the thresholds only as prompt text in
`SCORING_PROMPT` (`src/lib/ai/scorer.ts`): BREAKING 95-100, MAJOR 75-94,
NOTABLE 55-74, INFO 40-54, NOISE below 40. -/
def labelForScore (s : Int) : ImportanceLabel :=
  if 95 ≤ s then .BREAKING
  else if 75 ≤ s then .MAJOR
  else if 55 ≤ s then .NOTABLE
  else if 40 ≤ s then .INFO
  else .NOISE

/-- Numeric severity rank of a label, highest severity largest. -/
def severityRank : ImportanceLabel → Nat
  | .NOISE => 0
  | .INFO => 1
  | .NOTABLE => 2
  | .MAJOR => 3
  | .BREAKING => 4

/-! ### Summarizer noise filter (`src/lib/ai/summarizer.ts`)

The scoring map produced by `scoreArticles` is keyed by article URL; it is
modelled as a function `String → Option ScoringResult`. -/

/-- The filter at the top of `summarizeArticles`: only articles whose
scoring exists and has `score >= 40` are summarized. -/
def toSummarize (articles : List RawArticle) (scorings : String → Option ScoringResult) :
    List RawArticle :=
  articles.filter (fun a =>
    match scorings a.url with
    | some scoring => decide (40 ≤ scoring.score)
    | none => false)

structure SummaryResult where
  summary : List String
  insight : String
  codeExample : Option String
  deriving DecidableEq, Repr

/-- The result map built by `summarizeArticles`: each article passing the
noise filter is summarized by the external service (`summarize`, which may
softly fail with `none`); successful results are keyed by URL. The batch
grouping and inter-batch delay of the source only affect timing, not the
resulting map. -/
def summarizeArticles (articles : List RawArticle) (scorings : String → Option ScoringResult)
    (summarize : RawArticle → ScoringResult → Option SummaryResult) :
    List (String × SummaryResult) :=
  (toSummarize articles scorings).foldl
    (fun acc a =>
      match scorings a.url with
      | some scoring =>
        match summarize a scoring with
        | some r => acc ++ [(a.url, r)]
        | none => acc
      | none => acc)
    []

/-! ### Stored articles and the feed endpoint
(`src/app/api/articles/today/route.ts`)

A stored `Article` row restricted to the fields the feed endpoint reads. -/

structure DbArticle where
  url : String
  importanceScore : Int
  category : Option String
  isGithubTrending : Bool
  publishedAt : Int
  githubStars : Option Int
  deriving DecidableEq, Repr

/-- Prisma `orderBy: [{importanceScore: 'desc'}, {publishedAt: 'desc'}]` as
a boolean "may stay before" relation. -/
def feedOrderLe (a b : DbArticle) : Bool :=
  decide (b.importanceScore < a.importanceScore) ||
  (decide (a.importanceScore = b.importanceScore) && decide (b.publishedAt ≤ a.publishedAt))

/-- Prisma `orderBy: [{githubStars: 'desc'}, {publishedAt: 'desc'}]` for the
trending query (an absent star count read as 0). -/
def trendingOrderLe (a b : DbArticle) : Bool :=
  decide (b.githubStars.getD 0 < a.githubStars.getD 0) ||
  (decide (a.githubStars.getD 0 = b.githubStars.getD 0) && decide (b.publishedAt ≤ a.publishedAt))

/-- Critical bucket query: `importanceScore >= 95` (the spread overrides the
base `gte: 40`) within the 3-day window. -/
def queryCritical (store : List DbArticle) (t3 : Int) : List DbArticle :=
  insertionSortBy feedOrderLe
    (store.filter (fun a => decide (95 ≤ a.importanceScore) && decide (t3 ≤ a.publishedAt)))

/-- Major bucket query: `75 <= importanceScore < 95` within the window. -/
def queryMajor (store : List DbArticle) (t3 : Int) : List DbArticle :=
  insertionSortBy feedOrderLe
    (store.filter (fun a =>
      decide (75 ≤ a.importanceScore) && decide (a.importanceScore < 95) && decide (t3 ≤ a.publishedAt)))

/-- Notable bucket query: `55 <= importanceScore < 75` within the window. -/
def queryNotable (store : List DbArticle) (t3 : Int) : List DbArticle :=
  insertionSortBy feedOrderLe
    (store.filter (fun a =>
      decide (55 ≤ a.importanceScore) && decide (a.importanceScore < 75) && decide (t3 ≤ a.publishedAt)))

/-- Info bucket query: `40 <= importanceScore < 55` within the window. -/
def queryInfo (store : List DbArticle) (t3 : Int) : List DbArticle :=
  insertionSortBy feedOrderLe
    (store.filter (fun a =>
      decide (40 ≤ a.importanceScore) && decide (a.importanceScore < 55) && decide (t3 ≤ a.publishedAt)))

/-- Trending query: `isGithubTrending` with the base where kept
(`importanceScore >= 40`, window). -/
def queryTrending (store : List DbArticle) (t3 : Int) : List DbArticle :=
  insertionSortBy trendingOrderLe
    (store.filter (fun a =>
      decide (40 ≤ a.importanceScore) && decide (t3 ≤ a.publishedAt) && a.isGithubTrending))

/-- The launch-like major categories of the assembly step. -/
def launchLikeCategories : List String := ["launch", "trending", "tools", "library"]

/-- `['launch','trending','tools','library'].includes(a.category || '')`. -/
def isLaunchLike (a : DbArticle) : Bool := decide (a.category.getD "" ∈ launchLikeCategories)

/-- The `addUnique` helper's loop: walk the bucket, stop once `maxCount`
items were added, skip items whose URL is in the seen set, otherwise append
to the feed and record the URL. -/
def addUniqueAux (maxCount : Nat) :
    List DbArticle → List String → List DbArticle → Nat → List String × List DbArticle
  | [], seen, feed, _ => (seen, feed)
  | a :: rest, seen, feed, added =>
    if maxCount ≤ added then (seen, feed)
    else if a.url ∈ seen then addUniqueAux maxCount rest seen feed added
    else addUniqueAux maxCount rest (a.url :: seen) (feed ++ [a]) (added + 1)

/-- `addUnique(articles, maxCount)` over the running (seen URL set, feed)
state. -/
def addUnique (st : List String × List DbArticle) (articles : List DbArticle) (maxCount : Nat) :
    List String × List DbArticle :=
  addUniqueAux maxCount articles st.1 st.2 0

/-- The balanced-feed assembly of the cache-miss path (route lines 163-202):
critical, then launch-like major, then other major, then notable, then
trending, then info — every call passing the full bucket length as
`maxCount`. -/
def buildBalancedFeed (critical major notable info trending : List DbArticle) : List DbArticle :=
  let launchesAndTools := major.filter isLaunchLike
  let otherMajor := major.filter (fun a => !(isLaunchLike a))
  let st0 : List String × List DbArticle := ([], [])
  let st1 := addUnique st0 critical critical.length
  let st2 := addUnique st1 launchesAndTools launchesAndTools.length
  let st3 := addUnique st2 otherMajor otherMajor.length
  let st4 := addUnique st3 notable notable.length
  let st5 := addUnique st4 trending trending.length
  let st6 := addUnique st5 info info.length
  st6.2

/-- The assembled recent-tier dataset: the balanced feed over the five
bucket queries. -/
def recentBalancedFeed (store : List DbArticle) (t3 : Int) : List DbArticle :=
  buildBalancedFeed (queryCritical store t3) (queryMajor store t3) (queryNotable store t3)
    (queryInfo store t3) (queryTrending store t3)

/-- Spec-side reformulation (for the refinement claim about assembly): keep
the first occurrence of each URL in a list, given an initial seen set. -/
def dedupByUrlFrom (seen : List String) : List DbArticle → List DbArticle
  | [] => []
  | a :: rest =>
    if a.url ∈ seen then dedupByUrlFrom seen rest
    else a :: dedupByUrlFrom (a.url :: seen) rest

/-- The seen-URL set after scanning a list (first occurrences recorded). -/
def urlAcc (seen : List String) : List DbArticle → List String
  | [] => seen
  | a :: rest => if a.url ∈ seen then urlAcc seen rest else urlAcc (a.url :: seen) rest

/-- Spec-side reformulation of the assembly order: concatenate the buckets
in the documented order and keep the first occurrence of each URL. -/
def assembleSpec (critical major notable info trending : List DbArticle) : List DbArticle :=
  dedupByUrlFrom []
    (critical ++ major.filter isLaunchLike ++ major.filter (fun a => !(isLaunchLike a)) ++
      notable ++ trending ++ info)

/-- ECMAScript `Array.prototype.slice(start, end)`: negative indices count
from the end, both are clamped to `[0, length]`, and an empty slice results
when the clamped end is not past the clamped start. -/
def jsSlice {α : Type} (d : List α) (start endIdx : Int) : List α :=
  let len : Int := d.length
  let s := if start < 0 then max (len + start) 0 else min start len
  let e := if endIdx < 0 then max (len + endIdx) 0 else min endIdx len
  (d.drop s.toNat).take (e - s).toNat

/-- The page served from a fixed ordered dataset (cache-hit path, route
lines 59 and 88-93): `cached.slice(offset, offset + limit)`, the page item
count, the dataset total, and `hasMore = offset + limit < cached.length`. -/
structure FeedPage where
  articles : List DbArticle
  count : Nat
  total : Nat
  hasMore : Bool
  deriving DecidableEq, Repr

/-- `paginate(data, offset, limit)` over a fixed ordered dataset. -/
def paginateCached (cached : List DbArticle) (offset limit : Nat) : FeedPage :=
  let page := jsSlice cached (offset : Int) ((offset : Int) + (limit : Int))
  { articles := page
    count := page.length
    total := cached.length
    hasMore := decide (offset + limit < cached.length) }

/-- Concatenate successive pages of `paginateCached` starting at `offset`,
stepping by `limit` while `hasMore` holds, with explicit fuel. -/
def collectPages (d : List DbArticle) (limit : Nat) : Nat → Nat → List DbArticle
  | _, 0 => []
  | offset, fuel + 1 =>
    let page := paginateCached d offset limit
    if page.hasMore then page.articles ++ collectPages d limit (offset + limit) fuel
    else page.articles

/-- Query-parameter handling of the recent-tier endpoint (route lines
30-31): `limit = Math.min(parsed limit or 10, 50)`. -/
def effectiveLimit (requested : Option Int) : Int := min (requested.getD 10) 50

/-- `offset = Math.max(0, parsed offset or 0)`. -/
def effectiveOffset (requested : Option Int) : Int := max 0 (requested.getD 0)

/-- The slice of the (cached or freshly assembled) ordered dataset the
recent-tier endpoint serves for the given raw query parameters. -/
def servedRecentPage (dataset : List DbArticle) (limitParam offsetParam : Option Int) :
    List DbArticle :=
  jsSlice dataset (effectiveOffset offsetParam)
    (effectiveOffset offsetParam + effectiveLimit limitParam)

/-- Historical-tier query (`fetchHistoricalArticles`): `importanceScore >=
40` and `publishedAt < beforeDate`, importance-first order, then
`skip offset, take limit`. -/
def queryHistorical (store : List DbArticle) (t3 : Int) (offset limit : Nat) : List DbArticle :=
  ((insertionSortBy feedOrderLe
      (store.filter (fun a => decide (40 ≤ a.importanceScore) && decide (a.publishedAt < t3)))).drop
    offset).take limit

/-! ### Recency cache (`articles-cache`, the module imported as
`@/lib/cache/articles-cache`) -/

structure CacheEntry where
  data : List DbArticle
  timestamp : Int
  epoch : String
  isValid : Bool
  deriving DecidableEq, Repr

structure CacheState where
  cache : Option CacheEntry
  hits : Nat
  misses : Nat
  deriving DecidableEq, Repr

/-- `articlesCache.getCached(currentEpoch)`: a missing or invalid entry is a
miss; an entry whose epoch differs from `currentEpoch` is a miss and is
marked invalid; otherwise a hit returning the cached data. -/
def getCached (s : CacheState) (currentEpoch : String) : Option (List DbArticle) × CacheState :=
  match s.cache with
  | none => (none, { s with misses := s.misses + 1 })
  | some entry =>
    if entry.isValid = false then (none, { s with misses := s.misses + 1 })
    else if entry.epoch ≠ currentEpoch then
      (none, { s with cache := some { entry with isValid := false }, misses := s.misses + 1 })
    else (some entry.data, { s with hits := s.hits + 1 })

/-- `articlesCache.setCache(articles, epoch)` (the timestamp is the wall
clock, passed in). -/
def setCache (s : CacheState) (articles : List DbArticle) (epoch : String) (timestamp : Int) :
    CacheState :=
  { s with cache := some { data := articles, timestamp := timestamp, epoch := epoch, isValid := true } }

/-- `articlesCache.invalidate()`: flips `isValid` on an existing entry. No
code in the repository calls it. -/
def invalidateCache (s : CacheState) : CacheState :=
  match s.cache with
  | none => s
  | some entry => { s with cache := some { entry with isValid := false } }

/-! ### Pipeline orchestrator (`src/lib/pipeline/orchestrator.ts`)

The pass is modelled over the state it can touch: the article store and the
recency cache. Fetching is the fan-in of the source adapters (given as the
input list); scoring is the external classifier (given as a map from URL).
Summaries, tech tags and duplicate-provenance rows only populate fields and
tables outside the modelled projection. Per-item save failures are external
(storage collaborator); the modelled saves succeed, matching the source's
non-throwing path, which reports `success: true`. -/

structure SystemState where
  store : List DbArticle
  cacheState : CacheState
  deriving DecidableEq, Repr

structure PipelineResult where
  success : Bool
  articlesProcessed : Nat
  articlesSaved : Nat
  errors : List String
  deriving DecidableEq, Repr

/-- The stored row created for a scored canonical article (the `create`
arm of the upsert, projected to the modelled fields). -/
def toDbArticle (article : RawArticle) (scoring : ScoringResult) : DbArticle :=
  { url := article.url
    importanceScore := scoring.score
    category := some scoring.category
    isGithubTrending := article.isGithubTrending.getD false
    publishedAt := article.publishedAt
    githubStars := article.githubStars }

/-- `prisma.article.upsert` keyed by `url`: update the score of an existing
row (the `update` arm touches none of the other modelled fields), or append
a new row. -/
def upsertArticle (store : List DbArticle) (row : DbArticle) : List DbArticle :=
  if store.any (fun x => x.url == row.url) then
    store.map (fun x => if x.url = row.url then { x with importanceScore := row.importanceScore } else x)
  else store ++ [row]

/-- `runPipeline`: fetch (given), dedupe, score, summarize (out of the
modelled projection), save each scored canonical article. The recency cache
is not touched anywhere in the orchestrator. -/
def runPipeline (fetched : List RawArticle) (scorings : String → Option ScoringResult)
    (sys : SystemState) : PipelineResult × SystemState :=
  if fetched.isEmpty then
    ({ success := true, articlesProcessed := 0, articlesSaved := 0, errors := [] }, sys)
  else
    let dedup := deduplicateArticles fetched
    let canonical := dedup.canonical
    let enriched := canonical.filterMap (fun a => (scorings a.url).map (fun sc => (a, sc)))
    let store' := enriched.foldl (fun st p => upsertArticle st (toDbArticle p.1 p.2)) sys.store
    ({ success := true, articlesProcessed := canonical.length, articlesSaved := enriched.length,
       errors := [] },
     { store := store', cacheState := sys.cacheState })

/-! ### Lemmas about the stable sort and the merge policy -/

lemma insertBy_ne_nil {α : Type} (le : α → α → Bool) (a : α) (l : List α) :
    insertBy le a l ≠ [] := by
  cases l with
  | nil => simp [insertBy]
  | cons b t => simp only [insertBy]; split <;> simp

lemma insertionSortBy_eq_nil_iff {α : Type} (le : α → α → Bool) (l : List α) :
    insertionSortBy le l = [] ↔ l = [] := by
  cases l with
  | nil => simp [insertionSortBy]
  | cons a t => simp [insertionSortBy, insertBy_ne_nil]

lemma mem_insertBy {α : Type} (le : α → α → Bool) (a x : α) (l : List α) :
    x ∈ insertBy le a l ↔ x = a ∨ x ∈ l := by
  induction l with
  | nil => simp [insertBy]
  | cons b t ih =>
    simp only [insertBy]
    split
    · simp
    · simp [ih]; tauto

lemma mem_insertionSortBy {α : Type} (le : α → α → Bool) (x : α) (l : List α) :
    x ∈ insertionSortBy le l ↔ x ∈ l := by
  induction l with
  | nil => simp [insertionSortBy]
  | cons a t ih => simp [insertionSortBy, mem_insertBy, ih]

lemma head_insertBy {α : Type} (le : α → α → Bool) (a : α) (l : List α) :
    (insertBy le a l).head? =
      some (match l.head? with
            | none => a
            | some b => if le a b then a else b) := by
  cases l with
  | nil => simp [insertBy]
  | cons b t => simp only [insertBy]; split <;> simp_all

lemma head_insertionSort_scoreDesc (l : List RawArticle) :
    (insertionSortBy scoreDescLe l).head? = firstMaxByScore l := by
  induction l with
  | nil => rfl
  | cons a l ih =>
    simp only [insertionSortBy, firstMaxByScore]
    rw [head_insertBy, ih]
    cases h : firstMaxByScore l with
    | none => simp
    | some m =>
      simp only [scoreDescLe]
      by_cases hle : scoreOrZero m ≤ scoreOrZero a <;> simp [hle]

lemma firstMaxByScore_isSome (l : List RawArticle) (h : l ≠ []) :
    ∃ c, firstMaxByScore l = some c := by
  cases l with
  | nil => exact absurd rfl h
  | cons a t =>
    simp only [firstMaxByScore]
    cases firstMaxByScore t with
    | none => exact ⟨a, rfl⟩
    | some m => dsimp only; split <;> exact ⟨_, rfl⟩

lemma firstMaxByScore_mem (l : List RawArticle) (c : RawArticle)
    (h : firstMaxByScore l = some c) : c ∈ l := by
  induction l generalizing c with
  | nil => simp [firstMaxByScore] at h
  | cons a t ih =>
    simp only [firstMaxByScore] at h
    cases hm : firstMaxByScore t with
    | none => rw [hm] at h; simp at h; simp [h]
    | some m =>
      rw [hm] at h
      dsimp only at h
      split at h
      · simp at h; simp [h]
      · simp at h; subst h; exact List.mem_cons_of_mem _ (ih _ hm)

lemma firstMaxByScore_ge (l : List RawArticle) (c : RawArticle)
    (h : firstMaxByScore l = some c) : ∀ a ∈ l, scoreOrZero a ≤ scoreOrZero c := by
  induction l generalizing c with
  | nil => simp [firstMaxByScore] at h
  | cons a t ih =>
    simp only [firstMaxByScore] at h
    cases hm : firstMaxByScore t with
    | none =>
      rw [hm] at h; simp at h
      have ht : t = [] := by
        cases t with
        | nil => rfl
        | cons b u => obtain ⟨c', hc'⟩ := firstMaxByScore_isSome (b :: u) (by simp); simp [hc'] at hm
      subst ht; simp [h]
    | some m =>
      rw [hm] at h
      dsimp only at h
      by_cases hle : scoreOrZero m ≤ scoreOrZero a
      · rw [if_pos hle] at h
        simp at h; subst h
        intro x hx
        rcases List.mem_cons.mp hx with rfl | hx'
        · exact le_refl _
        · exact le_trans (ih _ hm x hx') hle
      · rw [if_neg hle] at h
        simp at h; subst h
        intro x hx
        rcases List.mem_cons.mp hx with rfl | hx'
        · omega
        · exact ih _ hm x hx'

lemma backfillHn_fields (all : List RawArticle) (c : RawArticle) :
    (backfillHn all c).url = c.url ∧ (backfillHn all c).title = c.title ∧
    (backfillHn all c).score = c.score ∧ (backfillHn all c).source = c.source ∧
    (backfillHn all c).publishedAt = c.publishedAt ∧
    (backfillHn all c).githubRepo = c.githubRepo ∧
    (backfillHn all c).githubStars = c.githubStars ∧
    (backfillHn all c).isGithubTrending = c.isGithubTrending ∧
    (backfillHn all c).redditDiscussionUrl = c.redditDiscussionUrl ∧
    (truthy c.hnDiscussionUrl = true → (backfillHn all c).hnDiscussionUrl = c.hnDiscussionUrl) := by
  unfold backfillHn
  split <;> simp_all

lemma backfillReddit_fields (all : List RawArticle) (c : RawArticle) :
    (backfillReddit all c).url = c.url ∧ (backfillReddit all c).title = c.title ∧
    (backfillReddit all c).score = c.score ∧ (backfillReddit all c).source = c.source ∧
    (backfillReddit all c).publishedAt = c.publishedAt ∧
    (backfillReddit all c).githubRepo = c.githubRepo ∧
    (backfillReddit all c).githubStars = c.githubStars ∧
    (backfillReddit all c).isGithubTrending = c.isGithubTrending ∧
    (backfillReddit all c).hnDiscussionUrl = c.hnDiscussionUrl ∧
    (truthy c.redditDiscussionUrl = true →
      (backfillReddit all c).redditDiscussionUrl = c.redditDiscussionUrl) := by
  unfold backfillReddit
  split <;> simp_all

/-- Structure of a merge result: it is the first maximal-score member of the
group, with only the two discussion-URL fields possibly backfilled, and
each of those only when the member's own field is not truthy. -/
lemma mergeArticles_spec (l : List RawArticle) (m : RawArticle)
    (hm : mergeArticles l = some m) :
    ∃ c, firstMaxByScore l = some c ∧
      m.url = c.url ∧ m.title = c.title ∧ m.score = c.score ∧
      m.source = c.source ∧ m.publishedAt = c.publishedAt ∧
      m.githubRepo = c.githubRepo ∧ m.githubStars = c.githubStars ∧
      m.isGithubTrending = c.isGithubTrending ∧
      (truthy c.hnDiscussionUrl = true → m.hnDiscussionUrl = c.hnDiscussionUrl) ∧
      (truthy c.redditDiscussionUrl = true → m.redditDiscussionUrl = c.redditDiscussionUrl) := by
  match l with
  | [] => simp [mergeArticles] at hm
  | [a] =>
    simp only [mergeArticles, Option.some.injEq] at hm
    subst hm
    exact ⟨_, by simp [firstMaxByScore], rfl, rfl, rfl, rfl, rfl, rfl, rfl, rfl,
      fun _ => rfl, fun _ => rfl⟩
  | a :: b :: rest =>
    rw [mergeArticles] at hm
    cases h : (insertionSortBy scoreDescLe (a :: b :: rest)).head? with
    | none => rw [h] at hm; simp at hm
    | some c =>
      rw [h] at hm
      simp only [Option.some.injEq] at hm
      subst hm
      refine ⟨c, by rw [← head_insertionSort_scoreDesc, h], ?_⟩
      obtain ⟨hu, ht, hs, hsrc, hp, hg, hst, htr, hrd, hhn⟩ := backfillHn_fields (a :: b :: rest) c
      obtain ⟨hu', ht', hs', hsrc', hp', hg', hst', htr', hhn', hrd'⟩ :=
        backfillReddit_fields (a :: b :: rest) (backfillHn (a :: b :: rest) c)
      refine ⟨by rw [hu', hu], by rw [ht', ht], by rw [hs', hs], by rw [hsrc', hsrc],
        by rw [hp', hp], by rw [hg', hg], by rw [hst', hst], by rw [htr', htr],
        ?_, ?_⟩
      · intro hc; rw [hhn', hhn hc]
      · intro hc; rw [hrd' (by rw [hrd]; exact hc), hrd]

lemma mergeArticles_pair_isSome (a b : RawArticle) :
    ∃ m, mergeArticles [a, b] = some m := by
  rw [mergeArticles]
  cases h : (insertionSortBy scoreDescLe [a, b]).head? with
  | none =>
    exfalso
    rw [List.head?_eq_none_iff, insertionSortBy_eq_nil_iff] at h
    simp at h
  | some c => exact ⟨_, rfl⟩

lemma firstMaxByScore_pair (e a : RawArticle) :
    firstMaxByScore [e, a] =
      some (if scoreOrZero a ≤ scoreOrZero e then e else a) := by
  simp only [firstMaxByScore]
  split <;> rfl

/-- Two-element deduplication where the second item duplicates the first:
one canonical slot holding the merge, the duplicate recorded under the
merged entry's URL. -/
lemma dedup_pair (e a : RawArticle) (h : areDuplicates a e = true) (m : RawArticle)
    (hm : mergeArticles [e, a] = some m) :
    deduplicateArticles [e, a] = { canonical := [m], duplicates := [(m.url, [a])] } := by
  simp [deduplicateArticles, dedupStep, mergeIntoCanonical, h, hm, mapGet, mapSet]

/-! ### Lemmas about the ghost-instrumented deduplication pass -/

lemma firstMaxByScore_eq_none_iff (l : List RawArticle) :
    firstMaxByScore l = none ↔ l = [] := by
  cases l with
  | nil => simp [firstMaxByScore]
  | cons a t =>
    obtain ⟨c, hc⟩ := firstMaxByScore_isSome (a :: t) (by simp)
    simp [hc]

lemma firstMaxByScore_append_single (g : List RawArticle) (a fm : RawArticle)
    (h : firstMaxByScore g = some fm) :
    firstMaxByScore (g ++ [a]) =
      some (if scoreOrZero a ≤ scoreOrZero fm then fm else a) := by
  induction g generalizing fm with
  | nil => simp [firstMaxByScore] at h
  | cons x g' ih =>
    rw [List.cons_append]
    simp only [firstMaxByScore] at h ⊢
    cases hg' : firstMaxByScore g' with
    | none =>
      have hnil : g' = [] := (firstMaxByScore_eq_none_iff g').mp hg'
      subst hnil
      rw [hg'] at h
      dsimp only at h
      simp only [Option.some.injEq] at h
      subst h
      simp only [List.nil_append, firstMaxByScore]
      by_cases h2 : scoreOrZero a ≤ scoreOrZero x
      · rw [if_pos h2, if_pos h2]
      · rw [if_neg h2, if_neg h2]
    | some fm' =>
      rw [hg'] at h
      dsimp only at h
      rw [ih fm' hg']
      dsimp only
      by_cases h1 : scoreOrZero fm' ≤ scoreOrZero x
      · rw [if_pos h1] at h
        simp only [Option.some.injEq] at h
        subst h
        by_cases h2 : scoreOrZero a ≤ scoreOrZero fm'
        · rw [if_pos h2, if_pos h1, if_pos (le_trans h2 h1)]
        · rw [if_neg h2]
          by_cases h3 : scoreOrZero a ≤ scoreOrZero x
          · rw [if_pos h3, if_pos h3]
          · rw [if_neg h3, if_neg h3]
      · rw [if_neg h1] at h
        simp only [Option.some.injEq] at h
        subst h
        by_cases h2 : scoreOrZero a ≤ scoreOrZero fm'
        · rw [if_pos h2, if_neg h1]
        · rw [if_neg h2, if_neg (by omega : ¬ scoreOrZero a ≤ scoreOrZero x)]

lemma agrees_refl (c : RawArticle) : agreesExceptDiscussion c c :=
  ⟨rfl, rfl, rfl, rfl, rfl, rfl, rfl, rfl⟩

lemma agrees_trans {a b c : RawArticle} (h1 : agreesExceptDiscussion a b)
    (h2 : agreesExceptDiscussion b c) : agreesExceptDiscussion a c := by
  obtain ⟨u1, t1, s1, src1, p1, g1, gs1, gt1⟩ := h1
  obtain ⟨u2, t2, s2, src2, p2, g2, gs2, gt2⟩ := h2
  exact ⟨u1.trans u2, t1.trans t2, s1.trans s2, src1.trans src2, p1.trans p2,
    g1.trans g2, gs1.trans gs2, gt1.trans gt2⟩

/-- A merge result agrees with the first maximal-score member of the merged
group on every non-backfillable field. -/
lemma mergeArticles_agrees (l : List RawArticle) (m : RawArticle)
    (hm : mergeArticles l = some m) :
    ∃ fm, firstMaxByScore l = some fm ∧ agreesExceptDiscussion m fm := by
  obtain ⟨c, hc, hu, ht, hs, hsrc, hp, hgr, hgs, hgt, -, -⟩ := mergeArticles_spec l m hm
  exact ⟨c, hc, hu, ht, hs, hsrc, hp, hgr, hgs, hgt⟩

/-- The ghost pass projects onto the real pass: dropping the member lists
recovers `mergeIntoCanonical`'s behaviour. -/
lemma mergeIntoSlots_proj (article : RawArticle)
    (slots : List (List RawArticle × RawArticle)) :
    (mergeIntoSlots article slots = none ∧
      mergeIntoCanonical article (slots.map Prod.snd) = none) ∨
    (∃ slots' merged, mergeIntoSlots article slots = some (slots', merged) ∧
      mergeIntoCanonical article (slots.map Prod.snd) = some (slots'.map Prod.snd, merged)) := by
  induction slots with
  | nil => exact Or.inl ⟨rfl, rfl⟩
  | cons gc0 rest ih =>
    obtain ⟨g, c⟩ := gc0
    by_cases hd : areDuplicates article c
    · obtain ⟨m, hm⟩ := mergeArticles_pair_isSome c article
      right
      refine ⟨(g ++ [article], m) :: rest, m, ?_, ?_⟩
      · simp only [mergeIntoSlots, if_pos hd, hm]
      · simp only [List.map_cons, mergeIntoCanonical, if_pos hd, hm]
    · rcases ih with ⟨h1, h2⟩ | ⟨slots', merged, h1, h2⟩
      · left
        constructor
        · simp only [mergeIntoSlots, if_neg hd, h1]
        · simp only [List.map_cons, mergeIntoCanonical, if_neg hd, h2]
      · right
        refine ⟨(g, c) :: slots', merged, ?_, ?_⟩
        · simp only [mergeIntoSlots, if_neg hd, h1]
        · simp only [List.map_cons, mergeIntoCanonical, if_neg hd, h2]

lemma foldl_slots_proj (l : List RawArticle) :
    ∀ (slots : List (List RawArticle × RawArticle)) (st : DedupResult),
      st.canonical = slots.map Prod.snd →
      (l.foldl dedupStep st).canonical = (l.foldl slotsStep slots).map Prod.snd := by
  induction l with
  | nil => intro slots st h; simpa using h
  | cons a l ih =>
    intro slots st h
    simp only [List.foldl_cons]
    apply ih
    rcases mergeIntoSlots_proj a slots with ⟨h1, h2⟩ | ⟨slots', merged, h1, h2⟩
    · have e1 : slotsStep slots a = slots ++ [([a], a)] := by
        simp only [slotsStep, h1]
      rw [e1]
      simp only [dedupStep, h, h2, List.map_append, List.map_cons, List.map_nil]
    · have e1 : slotsStep slots a = slots' := by
        simp only [slotsStep, h1]
      rw [e1]
      simp only [dedupStep, h, h2]

lemma mergeIntoSlots_slotOk (article : RawArticle) :
    ∀ (slots slots' : List (List RawArticle × RawArticle)) (merged : RawArticle),
      mergeIntoSlots article slots = some (slots', merged) →
      (∀ gc ∈ slots, SlotOk gc) → ∀ gc ∈ slots', SlotOk gc := by
  intro slots
  induction slots with
  | nil => intro slots' merged h hall; simp [mergeIntoSlots] at h
  | cons gc0 rest ih =>
    intro slots' merged h hall
    obtain ⟨g, c⟩ := gc0
    by_cases hd : areDuplicates article c
    · obtain ⟨m, hm⟩ := mergeArticles_pair_isSome c article
      have he : mergeIntoSlots article ((g, c) :: rest) =
          some ((g ++ [article], m) :: rest, m) := by
        simp only [mergeIntoSlots, if_pos hd, hm]
      rw [he] at h
      simp only [Option.some.injEq, Prod.mk.injEq] at h
      obtain ⟨h1, -⟩ := h
      subst h1
      intro gc hgc
      rcases List.mem_cons.mp hgc with rfl | hgc'
      · obtain ⟨fm, hfm, hagree⟩ := hall (g, c) (List.mem_cons_self _ _)
        obtain ⟨fm2, hfm2, hagm⟩ := mergeArticles_agrees _ _ hm
        rw [firstMaxByScore_pair] at hfm2
        simp only [Option.some.injEq] at hfm2
        subst hfm2
        have hsc : scoreOrZero c = scoreOrZero fm := by
          unfold scoreOrZero
          rw [hagree.2.2.1]
        by_cases hle : scoreOrZero article ≤ scoreOrZero c
        · rw [if_pos hle] at hagm
          have happ := firstMaxByScore_append_single g article fm hfm
          rw [if_pos (by omega)] at happ
          exact ⟨fm, happ, agrees_trans hagm hagree⟩
        · rw [if_neg hle] at hagm
          have happ := firstMaxByScore_append_single g article fm hfm
          rw [if_neg (by omega)] at happ
          exact ⟨article, happ, hagm⟩
      · exact hall gc (List.mem_cons_of_mem _ hgc')
    · cases hms : mergeIntoSlots article rest with
      | none =>
        have he : mergeIntoSlots article ((g, c) :: rest) = none := by
          simp only [mergeIntoSlots, if_neg hd, hms]
        rw [he] at h
        exact absurd h (by simp)
      | some pr =>
        obtain ⟨rest', m⟩ := pr
        have he : mergeIntoSlots article ((g, c) :: rest) = some ((g, c) :: rest', m) := by
          simp only [mergeIntoSlots, if_neg hd, hms]
        rw [he] at h
        simp only [Option.some.injEq, Prod.mk.injEq] at h
        obtain ⟨h1, hmm⟩ := h
        subst h1
        intro gc hgc
        rcases List.mem_cons.mp hgc with rfl | hgc'
        · exact hall (g, c) (List.mem_cons_self _ _)
        · exact ih rest' m hms (fun x hx => hall x (List.mem_cons_of_mem _ hx)) gc hgc'

/-- Every slot of every full run is sound: the representative carries the
fields of the first maximal-score member merged into the slot so far. -/
lemma dedupSlots_slotOk (articles : List RawArticle) :
    ∀ gc ∈ dedupSlots articles, SlotOk gc := by
  unfold dedupSlots
  suffices hgen : ∀ (l : List RawArticle) (slots : List (List RawArticle × RawArticle)),
      (∀ gc ∈ slots, SlotOk gc) → ∀ gc ∈ l.foldl slotsStep slots, SlotOk gc by
    exact hgen articles [] (by simp)
  intro l
  induction l with
  | nil => intro slots h; simpa using h
  | cons a l ih =>
    intro slots h
    simp only [List.foldl_cons]
    apply ih
    rw [slotsStep]
    cases hms : mergeIntoSlots a slots with
    | none =>
      intro gc hgc
      rcases List.mem_append.mp hgc with h1 | h2
      · exact h gc h1
      · simp only [List.mem_singleton] at h2
        subst h2
        exact ⟨a, by simp [firstMaxByScore], agrees_refl a⟩
    | some pr =>
      obtain ⟨slots', merged⟩ := pr
      exact mergeIntoSlots_slotOk a slots slots' merged hms h

/-- The first-match/append case split of the scan over the canonical list. -/
lemma mergeIntoCanonical_cases (article : RawArticle) (canonical : List RawArticle) :
    (mergeIntoCanonical article canonical = none ∧
      ∀ c ∈ canonical, areDuplicates article c = false) ∨
    (∃ i existing merged canonical',
      mergeIntoCanonical article canonical = some (canonical', merged) ∧
      canonical[i]? = some existing ∧
      areDuplicates article existing = true ∧
      (∀ j, j < i → ∀ c, canonical[j]? = some c → areDuplicates article c = false) ∧
      mergeArticles [existing, article] = some merged ∧
      canonical' = canonical.set i merged) := by
  induction canonical with
  | nil => exact Or.inl ⟨rfl, by simp⟩
  | cons c rest ih =>
    by_cases hd : areDuplicates article c
    · obtain ⟨m, hm⟩ := mergeArticles_pair_isSome c article
      right
      refine ⟨0, c, m, m :: rest, ?_, by simp, hd, ?_, hm, rfl⟩
      · simp only [mergeIntoCanonical, if_pos hd, hm]
      · intro j hj x hx
        exact absurd hj (Nat.not_lt_zero j)
    · rcases ih with ⟨h1, h2⟩ | ⟨i, ex, m, can', h1, h2, h3, h4, h5, h6⟩
      · left
        refine ⟨?_, ?_⟩
        · simp only [mergeIntoCanonical, if_neg hd, h1]
        · intro x hx
          rcases List.mem_cons.mp hx with rfl | hx'
          · simpa using hd
          · exact h2 x hx'
      · right
        refine ⟨i + 1, ex, m, c :: can', ?_, ?_, h3, ?_, h5, ?_⟩
        · simp only [mergeIntoCanonical, if_neg hd, h1]
        · simpa using h2
        · intro j hj x hx
          cases j with
          | zero =>
            simp only [List.getElem?_cons_zero, Option.some.injEq] at hx
            subst hx
            simpa using hd
          | succ j' =>
            apply h4 j' (by omega)
            simpa using hx
        · rw [h6]
          rfl

/-! ### Lemmas about the balanced-feed assembly -/

lemma addUniqueAux_noCap (maxCount : Nat) (l : List DbArticle) (seen : List String)
    (feed : List DbArticle) (added : Nat) (h : added + l.length ≤ maxCount) :
    addUniqueAux maxCount l seen feed added = (urlAcc seen l, feed ++ dedupByUrlFrom seen l) := by
  induction l generalizing seen feed added with
  | nil => simp [addUniqueAux, urlAcc, dedupByUrlFrom]
  | cons a rest ih =>
    have hcap : ¬ (maxCount ≤ added) := by simp at h; omega
    simp only [addUniqueAux, urlAcc, dedupByUrlFrom, if_neg hcap]
    by_cases hseen : a.url ∈ seen
    · rw [if_pos hseen, if_pos hseen, if_pos hseen, ih]
      simp at h ⊢; omega
    · rw [if_neg hseen, if_neg hseen, if_neg hseen, ih]
      · simp
      · simp at h ⊢; omega

lemma dedupByUrlFrom_append (seen : List String) (l1 l2 : List DbArticle) :
    dedupByUrlFrom seen (l1 ++ l2) =
      dedupByUrlFrom seen l1 ++ dedupByUrlFrom (urlAcc seen l1) l2 := by
  induction l1 generalizing seen with
  | nil => simp [dedupByUrlFrom, urlAcc]
  | cons a rest ih =>
    simp only [List.cons_append, dedupByUrlFrom, urlAcc, List.append_eq]
    by_cases hseen : a.url ∈ seen
    · rw [if_pos hseen, if_pos hseen, if_pos hseen, ih]
    · rw [if_neg hseen, if_neg hseen, if_neg hseen, ih]
      simp

/-- The imperative assembly equals the declarative first-occurrence
formulation. -/
lemma buildBalancedFeed_eq (c m n i t : List DbArticle) :
    buildBalancedFeed c m n i t = assembleSpec c m n i t := by
  simp only [buildBalancedFeed, addUnique, assembleSpec]
  rw [addUniqueAux_noCap _ _ _ _ _ (by simp), addUniqueAux_noCap _ _ _ _ _ (by simp),
      addUniqueAux_noCap _ _ _ _ _ (by simp), addUniqueAux_noCap _ _ _ _ _ (by simp),
      addUniqueAux_noCap _ _ _ _ _ (by simp), addUniqueAux_noCap _ _ _ _ _ (by simp)]
  simp only [dedupByUrlFrom_append, List.append_assoc, List.nil_append]

lemma mem_dedupByUrlFrom {x : DbArticle} {l : List DbArticle} (seen : List String)
    (h : x ∈ dedupByUrlFrom seen l) : x ∈ l := by
  induction l generalizing seen with
  | nil => simp [dedupByUrlFrom] at h
  | cons a rest ih =>
    simp only [dedupByUrlFrom] at h
    by_cases hseen : a.url ∈ seen
    · rw [if_pos hseen] at h
      exact List.mem_cons_of_mem _ (ih _ h)
    · rw [if_neg hseen] at h
      rcases List.mem_cons.mp h with rfl | h'
      · exact List.mem_cons_self _ _
      · exact List.mem_cons_of_mem _ (ih _ h')

lemma dedupByUrlFrom_nodup (l : List DbArticle) :
    ∀ seen : List String, ((dedupByUrlFrom seen l).map DbArticle.url).Nodup ∧
      ∀ u ∈ (dedupByUrlFrom seen l).map DbArticle.url, u ∉ seen := by
  induction l with
  | nil => intro seen; simp [dedupByUrlFrom]
  | cons a rest ih =>
    intro seen
    simp only [dedupByUrlFrom]
    by_cases hseen : a.url ∈ seen
    · rw [if_pos hseen]; exact ih seen
    · rw [if_neg hseen]
      obtain ⟨hnd, hout⟩ := ih (a.url :: seen)
      refine ⟨?_, ?_⟩
      · simp only [List.map_cons, List.nodup_cons]
        exact ⟨fun hmem => (hout _ hmem) (List.mem_cons_self _ _), hnd⟩
      · intro u hu
        simp only [List.map_cons, List.mem_cons] at hu
        rcases hu with rfl | hu'
        · exact hseen
        · exact fun hin => (hout _ hu') (List.mem_cons_of_mem _ hin)

/-! ### Lemmas about slicing and pagination -/

lemma jsSlice_nat {α : Type} (d : List α) (o l : Nat) :
    jsSlice d (o : Int) ((o : Int) + (l : Int)) = (d.drop o).take l := by
  simp only [jsSlice]
  rw [if_neg (by omega), if_neg (by omega)]
  by_cases ho : o ≤ d.length
  · have hs : (min (o : Int) (d.length : Int)).toNat = o := by omega
    have he : ((min ((o : Int) + (l : Int)) (d.length : Int)) -
        (min (o : Int) (d.length : Int))).toNat = min l (d.length - o) := by omega
    rw [hs, he]
    rcases le_or_lt l (d.length - o) with hl | hl
    · rw [min_eq_left hl]
    · rw [min_eq_right (le_of_lt hl)]
      rw [List.take_eq_take]
      simp [List.length_drop]
      omega
  · have hs : (min (o : Int) (d.length : Int)).toNat = d.length := by omega
    have he : ((min ((o : Int) + (l : Int)) (d.length : Int)) -
        (min (o : Int) (d.length : Int))).toNat = 0 := by omega
    rw [hs, he]
    rw [List.drop_length, List.drop_eq_nil_of_le (by omega)]
    simp

lemma collectPages_drop (d : List DbArticle) (limit : Nat) (hl : 1 ≤ limit) :
    ∀ (fuel offset : Nat), d.length ≤ offset + fuel * limit →
      collectPages d limit offset fuel = d.drop offset := by
  intro fuel
  induction fuel with
  | zero =>
    intro offset h
    simp only [Nat.zero_mul, Nat.add_zero] at h
    simp only [collectPages]
    exact (List.drop_eq_nil_of_le h).symm
  | succ fuel ih =>
    intro offset h
    rw [Nat.succ_mul] at h
    simp only [collectPages, paginateCached]
    by_cases hmore : offset + limit < d.length
    · rw [if_pos (by simpa using hmore)]
      rw [jsSlice_nat, ih (offset + limit) (by omega)]
      have hdd : (d.drop offset).drop limit = d.drop (offset + limit) := by
        rw [List.drop_drop]
      rw [← hdd]
      exact List.take_append_drop limit (d.drop offset)
    · rw [if_neg (by simpa using hmore)]
      rw [jsSlice_nat]
      apply List.take_of_length_le
      rw [List.length_drop]
      omega

/-! ### Lemmas about the summarizer filter and the feed queries -/

lemma mem_toSummarize {articles : List RawArticle} {scorings : String → Option ScoringResult}
    {a : RawArticle} :
    a ∈ toSummarize articles scorings ↔
      a ∈ articles ∧ ∃ s, scorings a.url = some s ∧ 40 ≤ s.score := by
  simp only [toSummarize, List.mem_filter]
  cases h : scorings a.url <;> simp [h]

lemma summarizeArticles_fold_mem (scorings : String → Option ScoringResult)
    (f : RawArticle → ScoringResult → Option SummaryResult) :
    ∀ (l : List RawArticle) (acc : List (String × SummaryResult)) (u : String)
      (r : SummaryResult),
      (u, r) ∈ l.foldl
        (fun acc a =>
          match scorings a.url with
          | some scoring =>
            match f a scoring with
            | some res => acc ++ [(a.url, res)]
            | none => acc
          | none => acc) acc →
      (u, r) ∈ acc ∨ ∃ a ∈ l, a.url = u := by
  intro l
  induction l with
  | nil => intro acc u r h; simp only [List.foldl_nil] at h; exact Or.inl h
  | cons a l ih =>
    intro acc u r h
    simp only [List.foldl_cons] at h
    cases hsc : scorings a.url with
    | none =>
      rw [hsc] at h
      dsimp only at h
      rcases ih _ _ _ h with hacc | ⟨b, hb, hbu⟩
      · exact Or.inl hacc
      · exact Or.inr ⟨b, List.mem_cons_of_mem _ hb, hbu⟩
    | some scoring =>
      rw [hsc] at h
      dsimp only at h
      cases hres : f a scoring with
      | none =>
        rw [hres] at h
        rcases ih _ _ _ h with hacc | ⟨b, hb, hbu⟩
        · exact Or.inl hacc
        · exact Or.inr ⟨b, List.mem_cons_of_mem _ hb, hbu⟩
      | some res =>
        rw [hres] at h
        rcases ih _ _ _ h with hacc | ⟨b, hb, hbu⟩
        · rcases List.mem_append.mp hacc with hacc' | hone
          · exact Or.inl hacc'
          · simp at hone
            exact Or.inr ⟨a, List.mem_cons_self _ _, hone.1.symm⟩
        · exact Or.inr ⟨b, List.mem_cons_of_mem _ hb, hbu⟩

lemma summarizeArticles_key {articles : List RawArticle}
    {scorings : String → Option ScoringResult}
    {f : RawArticle → ScoringResult → Option SummaryResult} {u : String} {r : SummaryResult}
    (h : (u, r) ∈ summarizeArticles articles scorings f) :
    ∃ a ∈ toSummarize articles scorings, a.url = u := by
  rcases summarizeArticles_fold_mem scorings f _ [] u r h with habs | hex
  · simp at habs
  · exact hex

lemma queryCritical_score {store : List DbArticle} {t3 : Int} {b : DbArticle}
    (h : b ∈ queryCritical store t3) : 40 ≤ b.importanceScore := by
  unfold queryCritical at h
  rw [mem_insertionSortBy] at h
  simp [List.mem_filter] at h
  omega

lemma queryMajor_score {store : List DbArticle} {t3 : Int} {b : DbArticle}
    (h : b ∈ queryMajor store t3) : 40 ≤ b.importanceScore := by
  unfold queryMajor at h
  rw [mem_insertionSortBy] at h
  simp [List.mem_filter] at h
  omega

lemma queryNotable_score {store : List DbArticle} {t3 : Int} {b : DbArticle}
    (h : b ∈ queryNotable store t3) : 40 ≤ b.importanceScore := by
  unfold queryNotable at h
  rw [mem_insertionSortBy] at h
  simp [List.mem_filter] at h
  omega

lemma queryInfo_score {store : List DbArticle} {t3 : Int} {b : DbArticle}
    (h : b ∈ queryInfo store t3) : 40 ≤ b.importanceScore := by
  unfold queryInfo at h
  rw [mem_insertionSortBy] at h
  simp [List.mem_filter] at h
  omega

lemma queryTrending_score {store : List DbArticle} {t3 : Int} {b : DbArticle}
    (h : b ∈ queryTrending store t3) : 40 ≤ b.importanceScore := by
  unfold queryTrending at h
  rw [mem_insertionSortBy] at h
  simp [List.mem_filter] at h
  omega

lemma recentBalancedFeed_score {store : List DbArticle} {t3 : Int} {b : DbArticle}
    (h : b ∈ recentBalancedFeed store t3) : 40 ≤ b.importanceScore := by
  unfold recentBalancedFeed at h
  rw [buildBalancedFeed_eq] at h
  unfold assembleSpec at h
  have hcat := mem_dedupByUrlFrom _ h
  simp only [List.mem_append] at hcat
  rcases hcat with ((((h | h) | h) | h) | h) | h
  · exact queryCritical_score h
  · exact queryMajor_score (List.mem_filter.mp h).1
  · exact queryMajor_score (List.mem_filter.mp h).1
  · exact queryNotable_score h
  · exact queryTrending_score h
  · exact queryInfo_score h

lemma queryHistorical_score {store : List DbArticle} {t3 : Int} {offset limit : Nat}
    {c : DbArticle} (h : c ∈ queryHistorical store t3 offset limit) :
    40 ≤ c.importanceScore := by
  unfold queryHistorical at h
  have h1 := (List.take_sublist _ _).mem h
  have h2 := (List.drop_sublist _ _).mem h1
  rw [mem_insertionSortBy] at h2
  simp [List.mem_filter] at h2
  omega

/-! ### Concrete instances used by witnesses and counterexamples -/

/-- Scenario A, first item: `{url:"https://x.com/a", score:10}`. -/
def artLow : RawArticle :=
  { title := "a", url := "https://x.com/a", source := .hn, publishedAt := 0,
    score := some 10, githubRepo := none, githubStars := none, isGithubTrending := none,
    hnDiscussionUrl := none, redditDiscussionUrl := none }

/-- Scenario A, second item: `{url:"https://X.COM/A/", score:50}`. -/
def artHigh : RawArticle :=
  { title := "a", url := "https://X.COM/A/", source := .reddit, publishedAt := 0,
    score := some 50, githubRepo := none, githubStars := none, isGithubTrending := none,
    hnDiscussionUrl := none, redditDiscussionUrl := none }

/-- An item with a malformed URL (URL parsing fails). -/
def artBad1 : RawArticle :=
  { title := "Hello World", url := "not a url", source := .blog, publishedAt := 0,
    score := none, githubRepo := none, githubStars := none, isGithubTrending := none,
    hnDiscussionUrl := none, redditDiscussionUrl := none }

/-- A second item with a malformed URL and the same title. -/
def artBad2 : RawArticle :=
  { title := "Hello World", url := "also bad", source := .blog, publishedAt := 0,
    score := none, githubRepo := none, githubStars := none, isGithubTrending := none,
    hnDiscussionUrl := none, redditDiscussionUrl := none }

/-- A scoring above the noise floor. -/
def scGood : ScoringResult :=
  { score := 45, label := .INFO, category := "research", languages := [], frameworks := [],
    topics := [], requiresCodeExample := false, affectsProduction := false,
    reasoning := "r", tags := [] }

/-- A summary result. -/
def smGood : SummaryResult := { summary := ["s"], insight := "i", codeExample := none }

/-- An article whose URL the concrete scoring map scores at 45. -/
def raGood : RawArticle :=
  { title := "g", url := "https://good.example/x", source := .arxiv, publishedAt := 5,
    score := none, githubRepo := none, githubStars := none, isGithubTrending := none,
    hnDiscussionUrl := none, redditDiscussionUrl := none }

/-- A concrete scoring map: scores `raGood`, knows nothing else. -/
def scFn : String → Option ScoringResult :=
  fun u => if u = "https://good.example/x" then some scGood else none

/-- A stored article inside the recency window, score 80. -/
def dbRecent : DbArticle :=
  { url := "https://r.example/1", importanceScore := 80, category := none,
    isGithubTrending := false, publishedAt := 10, githubStars := none }

/-- A stored article before the recency window, score 50. -/
def dbOld : DbArticle :=
  { url := "https://o.example/2", importanceScore := 50, category := none,
    isGithubTrending := false, publishedAt := -5, githubStars := none }

def storeW : List DbArticle := [dbRecent, dbOld]

/-- A valid cache entry built at epoch `2025-10-09`. -/
def cacheEntryW : CacheEntry :=
  { data := [dbRecent], timestamp := 0, epoch := "2025-10-09", isValid := true }

def cacheW : CacheState := { cache := some cacheEntryW, hits := 0, misses := 0 }

def sysW : SystemState := { store := [], cacheState := cacheW }

/-- A fixed ordered dataset of length 25 (Scenario D). -/
def pageData25 : List DbArticle := List.replicate 25 dbRecent

/-! ### The claims -/

/-- C1, counterexample: the claim says the URL keying a canonical slot is
never replaced by a later item's URL, but deduplicating Scenario A's two
items leaves the slot — created by the first item, URL
`https://x.com/a` — holding the second, higher-score item's URL
`https://X.COM/A/`, and the duplicate list is keyed by that later URL. -/
theorem C1_counterexample :
    (deduplicateArticles [artLow, artHigh]).canonical.map RawArticle.url = ["https://X.COM/A/"] ∧
    (deduplicateArticles [artLow]).canonical.map RawArticle.url = ["https://x.com/a"] ∧
    artLow.url = "https://x.com/a" ∧ artHigh.url = "https://X.COM/A/" ∧
    (deduplicateArticles [artLow, artHigh]).duplicates.map Prod.fst = ["https://X.COM/A/"] := by
  decide

/-- C1 (amended): for every input list, the deduplicator's canonical slots
are positionally stable — every processed item either merges into the first
matching slot *in place* (with the merged-away item recorded under that
slot's post-merge URL) or appends exactly one new slot at the end, so a
merge never moves, adds or removes a slot — while the entry occupying a
slot always carries the URL, score and every other non-backfillable field
of the highest-engagement-score item assigned to the slot so far, ties kept
by the earliest member: a later, strictly higher-score duplicate therefore
replaces the slot's URL with its own. -/
theorem C1_slot_url_follows_score_winner (articles : List RawArticle) :
    ((deduplicateArticles articles).canonical = (dedupSlots articles).map Prod.snd) ∧
    (∀ gc ∈ dedupSlots articles, SlotOk gc) ∧
    (∀ (st : DedupResult) (article : RawArticle),
      ((∀ c ∈ st.canonical, areDuplicates article c = false) ∧
        dedupStep st article =
          { canonical := st.canonical ++ [article], duplicates := st.duplicates }) ∨
      (∃ i existing merged,
        st.canonical[i]? = some existing ∧
        areDuplicates article existing = true ∧
        (∀ j, j < i → ∀ c, st.canonical[j]? = some c → areDuplicates article c = false) ∧
        mergeArticles [existing, article] = some merged ∧
        dedupStep st article =
          { canonical := st.canonical.set i merged,
            duplicates := mapSet st.duplicates merged.url
              ((mapGet st.duplicates merged.url).getD [] ++ [article]) })) := by
  refine ⟨?_, dedupSlots_slotOk articles, ?_⟩
  · unfold deduplicateArticles dedupSlots
    exact foldl_slots_proj articles [] { canonical := [], duplicates := [] } rfl
  · intro st article
    rcases mergeIntoCanonical_cases article st.canonical with
      ⟨hnone, hall⟩ | ⟨i, ex, m, can', hsome, hget, hdup, hfirst, hm, hset⟩
    · left
      refine ⟨hall, ?_⟩
      simp only [dedupStep, hnone]
    · right
      refine ⟨i, ex, m, hget, hdup, hfirst, hm, ?_⟩
      simp only [dedupStep, hsome, hset]

/-- C1, witness: at Scenario A's two items the single slot — created by the
score-10 item — absorbs both items and ends up represented by the score-50
item (so with its URL), as the theorem's slot soundness demands. -/
theorem C1_witness :
    dedupSlots [artLow, artHigh] = [([artLow, artHigh], artHigh)] ∧
    (deduplicateArticles [artLow, artHigh]).canonical =
      (dedupSlots [artLow, artHigh]).map Prod.snd ∧
    SlotOk ([artLow, artHigh], artHigh) :=
  ⟨by decide, (C1_slot_url_follows_score_winner [artLow, artHigh]).1,
    (C1_slot_url_follows_score_winner [artLow, artHigh]).2.1
      ([artLow, artHigh], artHigh) (by decide)⟩

/-- C2, counterexample: the claim says the recency cache is explicitly
invalidated after every successful re-ingestion pass, so the next feed read
is a miss; but the orchestrator never touches the cache: after a successful
pass over a state holding a valid cached feed, a read with the same epoch
key is still a hit returning the cached data. -/
theorem C2_counterexample :
    (runPipeline [artLow] (fun _ => none) sysW).1.success = true ∧
    (getCached (runPipeline [artLow] (fun _ => none) sysW).2.cacheState "2025-10-09").1 =
      some [dbRecent] := by
  decide

/-- C2 (amended): a successful re-ingestion pass leaves the recency cache
entry exactly as it was — `runPipeline` never calls the cache's
`invalidate`; the entry becomes a miss only implicitly, when a later read
supplies a different epoch key (or if the unused `invalidate` API were
called). -/
theorem C2_pipeline_preserves_cache (fetched : List RawArticle)
    (scorings : String → Option ScoringResult) (sys : SystemState) :
    (runPipeline fetched scorings sys).2.cacheState = sys.cacheState ∧
    (runPipeline fetched scorings sys).1.success = true := by
  unfold runPipeline
  split <;> simp

/-- C5: the merge policy — the canonical survivor of a merge is the
first-seen highest-`scoreOrZero` member of the group (absent scores read as
0, ties broken in favor of the earlier member): it keeps that member's
score, URL and title, its score dominates every group member, and a
discussion-thread URL of the canonical member is never overwritten by one
carried over from a merged-away duplicate. -/
theorem C5_merge_policy (l : List RawArticle) (m : RawArticle)
    (hm : mergeArticles l = some m) :
    ∃ c, firstMaxByScore l = some c ∧ m.score = c.score ∧ m.url = c.url ∧ m.title = c.title ∧
      (∀ a ∈ l, scoreOrZero a ≤ scoreOrZero m) ∧
      (truthy c.hnDiscussionUrl = true → m.hnDiscussionUrl = c.hnDiscussionUrl) ∧
      (truthy c.redditDiscussionUrl = true → m.redditDiscussionUrl = c.redditDiscussionUrl) := by
  obtain ⟨c, hc, hu, ht, hs, -, -, -, -, -, hhn, hrd⟩ := mergeArticles_spec l m hm
  refine ⟨c, hc, hs, hu, ht, ?_, hhn, hrd⟩
  intro a ha
  have hge := firstMaxByScore_ge l c hc a ha
  unfold scoreOrZero at hge ⊢
  rw [hs]
  exact hge

/-- C5, witness: Scenario A — merging the two items yields the score-50
item, and the Deduplicator returns exactly one canonical item with
score 50. -/
theorem C5_witness :
    mergeArticles [artLow, artHigh] = some artHigh ∧
    (deduplicateArticles [artLow, artHigh]).canonical.map RawArticle.score = [some 50] ∧
    (∃ c, firstMaxByScore [artLow, artHigh] = some c ∧ artHigh.score = c.score ∧
      artHigh.url = c.url ∧ artHigh.title = c.title ∧
      (∀ a ∈ [artLow, artHigh], scoreOrZero a ≤ scoreOrZero artHigh) ∧
      (truthy c.hnDiscussionUrl = true → artHigh.hnDiscussionUrl = c.hnDiscussionUrl) ∧
      (truthy c.redditDiscussionUrl = true →
        artHigh.redditDiscussionUrl = c.redditDiscussionUrl)) :=
  ⟨by decide, by decide, C5_merge_policy [artLow, artHigh] artHigh (by decide)⟩

/-- Rule 1 of the duplicate predicate: normalized URL equality. -/
def dupRule1 (a b : RawArticle) : Prop := normalizeUrl a.url = normalizeUrl b.url

/-- Rule 2: same (truthy) repository identifier and both URLs indicate a
release page. -/
def dupRule2 (a b : RawArticle) : Prop :=
  truthy a.githubRepo = true ∧ truthy b.githubRepo = true ∧ a.githubRepo = b.githubRepo ∧
  strIncludes a.url "/releases/" = true ∧ strIncludes b.url "/releases/" = true

/-- Rule 3: same nonempty registrable domain and title similarity at least
0.85. -/
def dupRule3 (a b : RawArticle) : Prop :=
  extractDomain a.url ≠ "" ∧ extractDomain b.url ≠ "" ∧
  extractDomain a.url = extractDomain b.url ∧
  titleSimilarityThreshold ≤ stringSimilarity (strToLower a.title) (strToLower b.title)

/-- Rule 4: title similarity at least 0.95, regardless of domain. -/
def dupRule4 (a b : RawArticle) : Prop :=
  crossDomainTitleThreshold ≤ stringSimilarity (strToLower a.title) (strToLower b.title)

/-- C6: the duplicate predicate holds exactly when one of the four rules
holds (normalized-URL equality; same repo and both release pages; same
nonempty domain with title similarity at least 0.85; title similarity at
least 0.95) — and a URL whose domain extraction fails closed to the empty
domain disables rule 3 only, leaving the predicate the disjunction of
rules 1, 2 and 4. The embedding is total, so a malformed URL never throws. -/
theorem C6_duplicate_predicate (a b : RawArticle) :
    (areDuplicates a b = true ↔ (dupRule1 a b ∨ dupRule2 a b ∨ dupRule3 a b ∨ dupRule4 a b)) ∧
    (extractDomain a.url = "" →
      (areDuplicates a b = true ↔ (dupRule1 a b ∨ dupRule2 a b ∨ dupRule4 a b))) := by
  have hmain : areDuplicates a b = true ↔
      (dupRule1 a b ∨ dupRule2 a b ∨ dupRule3 a b ∨ dupRule4 a b) := by
    simp only [areDuplicates, dupRule1, dupRule2, dupRule3, dupRule4]
    split_ifs with h1 h2 h3 h4 <;> simp_all
  refine ⟨hmain, fun hdom => ?_⟩
  rw [hmain]
  have hr3 : ¬ dupRule3 a b := fun h3 => h3.1 hdom
  tauto

/-- C6, witness: two items with malformed URLs (domain extraction fails
closed) and identical titles — the predicate is decided by rules 1, 2 and 4
alone, and holds here via rule 4. -/
theorem C6_witness :
    (areDuplicates artBad1 artBad2 = true ↔
      (dupRule1 artBad1 artBad2 ∨ dupRule2 artBad1 artBad2 ∨ dupRule4 artBad1 artBad2)) ∧
    areDuplicates artBad1 artBad2 = true ∧ extractDomain artBad1.url = "" :=
  ⟨(C6_duplicate_predicate artBad1 artBad2).2 (by decide), by decide, by decide⟩

/-- C3: the pagination contract over a fixed ordered dataset — the page is
exactly `data[o : o+l]`, the reported total is the dataset length,
`hasMore` holds exactly when `o + l < data.length`, an offset at or past
the length yields an empty page with `hasMore = false` (not an error), and
for positive limit, concatenating successive pages from offset 0 stepping
by the limit until `hasMore` is false reconstructs the dataset exactly,
with no gaps or duplicates. -/
theorem C3_pagination_contract (d : List DbArticle) (o l : Nat) :
    (paginateCached d o l).articles = (d.drop o).take l ∧
    (paginateCached d o l).total = d.length ∧
    ((paginateCached d o l).hasMore = true ↔ o + l < d.length) ∧
    (d.length ≤ o → (paginateCached d o l).articles = [] ∧
      (paginateCached d o l).hasMore = false) ∧
    (1 ≤ l → collectPages d l 0 (d.length + 1) = d) := by
  have hart : (paginateCached d o l).articles = (d.drop o).take l := by
    simp only [paginateCached]
    exact jsSlice_nat d o l
  refine ⟨hart, rfl, by simp [paginateCached], fun hlen => ⟨?_, ?_⟩, fun hl => ?_⟩
  · rw [hart, List.drop_eq_nil_of_le hlen]
    simp
  · have hnot : ¬ (o + l < d.length) := by omega
    simp [paginateCached, hnot]
  · rw [collectPages_drop d l hl (d.length + 1) 0 ?_]
    · simp
    · have hmul := Nat.mul_le_mul_left (d.length + 1) hl
      omega

/-- C3, witness: Scenario D — a dataset of length 25 at offset 20, limit 10
returns 5 items with `hasMore = false`, and page concatenation at limit 10
rebuilds the dataset. -/
theorem C3_witness :
    (paginateCached pageData25 20 10).articles.length = 5 ∧
    (paginateCached pageData25 20 10).hasMore = false ∧
    (paginateCached pageData25 20 10).total = 25 ∧
    collectPages pageData25 10 0 26 = pageData25 := by
  obtain ⟨hart, htot, -, hpast, hcov⟩ := C3_pagination_contract pageData25 20 10
  refine ⟨?_, ?_, ?_, ?_⟩
  · rw [hart]; decide
  · decide
  · rw [htot]; decide
  · have := C3_pagination_contract pageData25 0 10
    exact (this.2.2.2.2 (by decide))

/-- C4: the assembled feed is exactly the concatenation, in order, of the
critical, launch-like-major, other-major, notable, trending and info
buckets with every already-placed URL skipped (first occurrence wins), and
consequently no URL appears twice in one assembled feed. -/
theorem C4_feed_assembly (critical major notable info trending : List DbArticle) :
    buildBalancedFeed critical major notable info trending =
      assembleSpec critical major notable info trending ∧
    ((buildBalancedFeed critical major notable info trending).map DbArticle.url).Nodup := by
  refine ⟨buildBalancedFeed_eq critical major notable info trending, ?_⟩
  rw [buildBalancedFeed_eq]
  exact (dedupByUrlFrom_nodup _ []).1

/-- C7: the classifier contract's score-to-label thresholds are exact
(BREAKING at 95 and above, MAJOR on [75, 95), NOTABLE on [55, 75), INFO on
[40, 55), NOISE below 40), and the label is monotone in the score: a lower
score never gets a strictly higher severity tier. -/
theorem C7_score_label_thresholds (s s1 s2 : Int) (h : s1 < s2) :
    (labelForScore s = .BREAKING ↔ 95 ≤ s) ∧
    (labelForScore s = .MAJOR ↔ 75 ≤ s ∧ s < 95) ∧
    (labelForScore s = .NOTABLE ↔ 55 ≤ s ∧ s < 75) ∧
    (labelForScore s = .INFO ↔ 40 ≤ s ∧ s < 55) ∧
    (labelForScore s = .NOISE ↔ s < 40) ∧
    severityRank (labelForScore s1) ≤ severityRank (labelForScore s2) := by
  unfold labelForScore
  refine ⟨?_, ?_, ?_, ?_, ?_, ?_⟩ <;>
    [skip; skip; skip; skip; skip;
      (unfold severityRank)] <;> split_ifs <;> simp_all <;> omega

/-- C7, witness: the thresholds and monotonicity at concrete scores. -/
theorem C7_witness :
    labelForScore 100 = .BREAKING ∧
    labelForScore 80 = .MAJOR ∧
    severityRank (labelForScore 47) ≤ severityRank (labelForScore 80) := by
  obtain ⟨h1, -, -, -, -, hmono⟩ := C7_score_label_thresholds 100 47 80 (by decide)
  obtain ⟨-, h2, -, -, -, -⟩ := C7_score_label_thresholds 80 0 1 (by decide)
  exact ⟨h1.mpr (by decide), h2.mpr (by decide), hmono⟩

/-- C8: a cached feed built (via `setCache`) with one epoch key is a miss
when read with any other epoch key, even though its `isValid` flag is still
true — the read returns no data and flips the entry invalid; likewise any
cache state whose entry's epoch differs from the read's epoch key misses. -/
theorem C8_epoch_mismatch_is_miss (s : CacheState) (entry : CacheEntry)
    (articles : List DbArticle) (ts : Int) (eBuilt eQuery : String)
    (hne : eQuery ≠ eBuilt) (hs : s.cache = some entry) (hse : entry.epoch ≠ eQuery) :
    ((setCache s articles eBuilt ts).cache.map CacheEntry.isValid = some true) ∧
    (getCached (setCache s articles eBuilt ts) eQuery).1 = none ∧
    ((getCached (setCache s articles eBuilt ts) eQuery).2.cache.map CacheEntry.isValid =
      some false) ∧
    (getCached s eQuery).1 = none := by
  have h1 : eBuilt ≠ eQuery := fun hcontra => hne hcontra.symm
  refine ⟨rfl, ?_, ?_, ?_⟩
  · simp [getCached, setCache, h1]
  · simp [getCached, setCache, h1]
  · rw [getCached, hs]
    cases hv : entry.isValid <;> simp [hv, hse]

/-- C8, witness: the concrete valid entry built at epoch `2025-10-09` is a
miss at epoch `2025-10-10`. -/
theorem C8_witness :
    ((setCache cacheW [dbRecent] "2025-10-09" 1).cache.map CacheEntry.isValid = some true) ∧
    (getCached (setCache cacheW [dbRecent] "2025-10-09" 1) "2025-10-10").1 = none ∧
    ((getCached (setCache cacheW [dbRecent] "2025-10-09" 1) "2025-10-10").2.cache.map
      CacheEntry.isValid = some false) ∧
    (getCached cacheW "2025-10-10").1 = none :=
  C8_epoch_mismatch_is_miss cacheW cacheEntryW [dbRecent] 1 "2025-10-09" "2025-10-10"
    (by decide) rfl (by decide)

/-- C9: the noise floor, each tier independently — (i) every article the
summarization step processes has an existing scoring with score at least 40
(so a sub-40 item is never summarized), (ii) every key of the summary map
traces back to such an article, (iii) every member of the assembled recent
feed has stored importance score at least 40, and (iv) so does every member
of every historical-tier page — so a sub-40 item never surfaces in either
tier. -/
theorem C9_noise_floor :
    (∀ (articles : List RawArticle) (scorings : String → Option ScoringResult)
        (a : RawArticle), a ∈ toSummarize articles scorings →
        a ∈ articles ∧ ∃ sc, scorings a.url = some sc ∧ 40 ≤ sc.score) ∧
    (∀ (articles : List RawArticle) (scorings : String → Option ScoringResult)
        (sumFn : RawArticle → ScoringResult → Option SummaryResult)
        (u : String) (r : SummaryResult),
        (u, r) ∈ summarizeArticles articles scorings sumFn →
        ∃ a', a' ∈ articles ∧ a'.url = u ∧ ∃ sc, scorings u = some sc ∧ 40 ≤ sc.score) ∧
    (∀ (store : List DbArticle) (t3 : Int) (b : DbArticle),
        b ∈ recentBalancedFeed store t3 → 40 ≤ b.importanceScore) ∧
    (∀ (store : List DbArticle) (t3 : Int) (offset limit : Nat) (c : DbArticle),
        c ∈ queryHistorical store t3 offset limit → 40 ≤ c.importanceScore) := by
  refine ⟨?_, ?_, ?_, ?_⟩
  · intro articles scorings a ha
    exact mem_toSummarize.mp ha
  · intro articles scorings sumFn u r hur
    obtain ⟨a', ha', hau⟩ := summarizeArticles_key hur
    obtain ⟨hmem, sc, hsc, hge⟩ := mem_toSummarize.mp ha'
    exact ⟨a', hmem, hau, sc, by rw [← hau]; exact hsc, hge⟩
  · intro store t3 b hb
    exact recentBalancedFeed_score hb
  · intro store t3 offset limit c hc
    exact queryHistorical_score hc

/-- C9, witness: each of the four parts applied at its own concrete inputs —
a score-45 article is summarized and keys the summary map, a score-80
stored article sits in the recent feed, and a score-50 old article sits in
a historical page. -/
theorem C9_witness :
    (raGood ∈ [raGood] ∧ ∃ sc, scFn raGood.url = some sc ∧ 40 ≤ sc.score) ∧
    (∃ a', a' ∈ [raGood] ∧ a'.url = "https://good.example/x" ∧
      ∃ sc, scFn "https://good.example/x" = some sc ∧ 40 ≤ sc.score) ∧
    40 ≤ dbRecent.importanceScore ∧ 40 ≤ dbOld.importanceScore :=
  ⟨C9_noise_floor.1 [raGood] scFn raGood (by decide),
   C9_noise_floor.2.1 [raGood] scFn (fun _ _ => some smGood)
     "https://good.example/x" smGood (by decide),
   C9_noise_floor.2.2.1 storeW 0 dbRecent (by decide),
   C9_noise_floor.2.2.2 storeW 0 0 10 dbOld (by decide)⟩

/-- C10: the recent-tier endpoint silently caps the effective page limit at
50 — a requested limit above 50 is reduced to 50 and any served page has at
most 50 items — and treats a negative requested offset as 0. -/
theorem C10_limit_cap_offset_clamp (d : List DbArticle) (reqLimit reqOffset anyOffset : Int)
    (hl : 50 < reqLimit) (ho : reqOffset < 0) :
    effectiveLimit (some reqLimit) = 50 ∧
    (servedRecentPage d (some reqLimit) (some anyOffset)).length ≤ 50 ∧
    effectiveOffset (some reqOffset) = 0 ∧
    servedRecentPage d (some reqLimit) (some reqOffset) =
      servedRecentPage d (some reqLimit) (some 0) := by
  have hel : effectiveLimit (some reqLimit) = 50 := by
    simp only [effectiveLimit, Option.getD_some]
    omega
  have heo : effectiveOffset (some reqOffset) = 0 := by
    simp only [effectiveOffset, Option.getD_some]
    omega
  have heo0 : effectiveOffset (some 0) = 0 := by
    simp [effectiveOffset]
  refine ⟨hel, ?_, heo, ?_⟩
  · simp only [servedRecentPage, jsSlice, hel]
    rw [if_neg (by simp only [effectiveOffset, Option.getD_some]; omega),
        if_neg (by simp only [effectiveOffset, Option.getD_some]; omega)]
    rw [List.length_take, List.length_drop]
    omega
  · rw [servedRecentPage, servedRecentPage, heo, heo0]

/-- C10, witness: a requested limit of 60 is capped (3-element dataset page
has at most 50 items) and a requested offset of -7 is clamped to 0. -/
theorem C10_witness :
    effectiveLimit (some 60) = 50 ∧
    (servedRecentPage storeW (some 60) (some 0)).length ≤ 50 ∧
    effectiveOffset (some (-7)) = 0 ∧
    servedRecentPage storeW (some 60) (some (-7)) = servedRecentPage storeW (some 60) (some 0) :=
  C10_limit_cap_offset_clamp storeW 60 (-7) 0 (by decide) (by decide)

end DevPulse
